import Mathlib

/-!
Verification of the knowledge-distiller pipeline (subtitle download / ASR /
SRT cleaning scripts).

The development shallowly embeds the Python sources:

* `src/clean_srt_for_LLM.py` — SRT parsing (`parse_srt`);
* `src/faster-whisper.py` — SRT time formatting (`format_srt_time`),
  segment text cleaning and SRT generation (`generate_srt`);
* `src/subtitle_downloader.py` — caption catalog construction and language
  resolution (`get_video_info`), download option generation
  (`generate_download_options`), and the per-URL main-loop step.

Python strings are modelled as `List Char`.  The Python string operations
used by the sources (`str.strip`, `str.split`, `str.join`, `str.replace`,
`int(...)`, decimal formatting) are given executable models named `py...`
below, each one translated from CPython's documented behaviour for the
ASCII inputs the scripts manipulate.  Python `float` seconds are modelled
by exact rationals (`ℚ`); Python dicts are modelled by association lists
whose lookup takes the latest binding, so that `dict.update` is list
append.
-/

/-- Character set stripped by Python's `str.strip()` (ASCII whitespace:
space, tab, newline, carriage return, form feed, vertical tab). -/
def isPySpace (c : Char) : Bool :=
  c = ' ' || c = '\t' || c = '\n' || c = '\r' || c = '\x0c' || c = '\x0b'

/-- Model of Python `str.lstrip()`. -/
def pyLStrip (s : List Char) : List Char :=
  s.dropWhile isPySpace

/-- Model of Python `str.rstrip()`. -/
def pyRStrip (s : List Char) : List Char :=
  (s.reverse.dropWhile isPySpace).reverse

/-- Model of Python `str.strip()`. -/
def pyStrip (s : List Char) : List Char :=
  pyRStrip (pyLStrip s)

/-- Helper for `splitGo`: prepend a character to the first piece of a
split result. -/
def consHead (c : Char) : List (List Char) → List (List Char)
  | [] => [[c]]
  | r :: rs => (c :: r) :: rs

/-- Fuelled worker for `pySplit`.  The fuel only serves to make the
definition structurally recursive (hence kernel-computable); any fuel
larger than the length of the string gives the same result
(`splitGo_fuel`). -/
def splitGo (sep : List Char) : Nat → List Char → List (List Char)
  | 0, s => [s]
  | _ + 1, [] => [[]]
  | fuel + 1, c :: rest =>
    if sep <+: c :: rest then
      [] :: splitGo sep fuel ((c :: rest).drop sep.length)
    else
      consHead c (splitGo sep fuel rest)

/-- Model of Python `str.split(sep)` for a non-empty separator `sep`:
scan left to right, cutting at each leftmost non-overlapping occurrence
of `sep`.  For example `"aa\n\n\n\nbb".split("\n\n") = ["aa", "", "bb"]`
and `"".split(sep) = [""]`. -/
def pySplit (sep s : List Char) : List (List Char) :=
  splitGo sep (s.length + 1) s

/-- Model of Python `sep.join(pieces)`. -/
def pyIntercalate (sep : List Char) : List (List Char) → List Char
  | [] => []
  | [x] => x
  | x :: y :: rest => x ++ sep ++ pyIntercalate sep (y :: rest)

/-- Fuelled worker for `pyReplace`; same fuel discipline as `splitGo`. -/
def replGo (old new : List Char) : Nat → List Char → List Char
  | 0, s => s
  | _ + 1, [] => []
  | fuel + 1, c :: rest =>
    if old <+: c :: rest then
      new ++ replGo old new fuel ((c :: rest).drop old.length)
    else
      c :: replGo old new fuel rest

/-- Model of Python `str.replace(old, new)` for non-empty `old`:
replace every leftmost non-overlapping occurrence of `old` by `new`.
For example `"....".replace("...", "x") = "x."`. -/
def pyReplace (s old new : List Char) : List Char :=
  replGo old new (s.length + 1) s

/-- Value of an ASCII digit character. -/
def charDigitVal (c : Char) : Nat :=
  c.toNat - 48

/-- Worker for `pyDigitsVal`: consumes the remainder of a digit string
after at least one digit has been read, accepting single underscores
between digits (Python's integer-literal grammar), and accumulates the
decimal value. -/
def goVal (a : Nat) : List Char → Option Nat
  | [] => some a
  | c :: rest =>
    if c = '_' then
      match rest with
      | [] => none
      | d :: rest2 => if d.isDigit then goVal (10 * a + charDigitVal d) rest2 else none
    else if c.isDigit then goVal (10 * a + charDigitVal c) rest else none

/-- Decimal value of a digit string per Python's `int` grammar (digits
with optional single underscores between them); `none` when the string
is not a valid unsigned integer literal. -/
def pyDigitsVal : List Char → Option Nat
  | [] => none
  | c :: rest => if c.isDigit then goVal (charDigitVal c) rest else none

/-- Model of Python `int(s)` for a decimal string: strip surrounding
whitespace, then an optional sign followed by digits; `none` models the
`ValueError` raised on malformed input. -/
def pyInt (s : List Char) : Option Int :=
  match pyStrip s with
  | [] => none
  | c :: rest =>
    if c = '+' then (pyDigitsVal rest).map (fun v => (v : Int))
    else if c = '-' then (pyDigitsVal rest).map (fun v => -(v : Int))
    else (pyDigitsVal (c :: rest)).map (fun v => (v : Int))

/-- Fuelled worker for `natToDec` (decimal rendering); structural in the
fuel so that it is kernel-computable. -/
def natToDecGo : Nat → Nat → List Char → List Char
  | 0, _, acc => acc
  | fuel + 1, n, acc =>
    if n < 10 then Nat.digitChar n :: acc
    else natToDecGo fuel (n / 10) (Nat.digitChar (n % 10) :: acc)

/-- Decimal rendering of a natural number, as produced by Python's
`str(n)` / `f"{n}"` for a non-negative `int`. -/
def natToDec (n : Nat) : List Char :=
  natToDecGo (n + 1) n []

/-- Mathematical specification of decimal rendering, via `Nat.digits`;
`natToDec_eq_decDigits` identifies it with `natToDec`. -/
def decDigits (n : Nat) : List Char :=
  if n = 0 then ['0'] else ((Nat.digits 10 n).reverse.map Nat.digitChar)

/-- Decimal rendering of an integer, as produced by Python's `str(i)`. -/
def intToDec (i : Int) : List Char :=
  if i < 0 then '-' :: natToDec i.natAbs else natToDec i.toNat

/-- Zero-padded two-digit rendering, as produced by Python's
`f"{n:02d}"` for a non-negative value (wider values print unpadded). -/
def pad2 (n : Nat) : List Char :=
  if n < 10 then '0' :: natToDec n else natToDec n

/-- Zero-padded three-digit rendering, as produced by Python's
`f"{n:03d}"` for a non-negative value. -/
def pad3 (n : Nat) : List Char :=
  if n < 10 then '0' :: '0' :: natToDec n
  else if n < 100 then '0' :: natToDec n
  else natToDec n

/-- Detector for two consecutive newline characters; used to state when a
string crosses a blank-line boundary of Python's `split("\n\n")`. -/
def hasNN : List Char → Bool
  | a :: b :: rest => (a = '\n' && b = '\n') || hasNN (b :: rest)
  | _ => false

/-!
Embedding of `src/clean_srt_for_LLM.py`.
-/

/-- One SRT cue as produced by `parse_srt` (clean_srt_for_LLM.py lines
56-66): the dictionary `{'index': ..., 'time': ..., 'text': ...}`. -/
structure Cue where
  index : Int
  time : List Char
  text : List Char
deriving DecidableEq

/-- Body of the per-block `for` loop of `parse_srt` (clean_srt_for_LLM.py
lines 51-69): split the stripped block into lines, skip it when it has
fewer than 3 lines, parse line 1 as an integer (a `ValueError` skips the
block — the `IndexError` arm of the source's `except` is unreachable once
the length check has passed), keep line 2 verbatim and rejoin lines 3..end
with `"\n"`. -/
def blockCue (block : List Char) : Option Cue :=
  let lines := pySplit ['\n'] (pyStrip block)
  if lines.length < 3 then none
  else
    match pyInt (lines.getD 0 []) with
    | none => none
    | some index =>
      some ⟨index, lines.getD 1 [], pyIntercalate ['\n'] (lines.drop 2)⟩

/-- Translation of `parse_srt` (clean_srt_for_LLM.py lines 38-69): strip
the whole content, split it into blocks on `"\n\n"`, and run the loop
that appends one cue per well-formed block to the initially empty
`subtitles` list. -/
def parse_srt (srt_content : List Char) : List Cue :=
  (pySplit ['\n', '\n'] (pyStrip srt_content)).foldl
    (fun subtitles block =>
      match blockCue block with
      | none => subtitles
      | some c => subtitles ++ [c])
    []

/-!
Embedding of `src/faster-whisper.py`.
-/

/-- Translation of `format_srt_time` (faster-whisper.py lines 88-96) with
the float argument `seconds` modelled as an exact rational.  Python's
float `//` and `%` are floor division and its remainder, and `int(...)`
on the non-negative quantities involved is the floor; the embedding is
stated for the non-negative seconds produced by transcription. -/
def format_srt_time (seconds : ℚ) : List Char :=
  pad2 (⌊seconds / 3600⌋).toNat ++
    ':' :: (pad2 (⌊(seconds - 3600 * ⌊seconds / 3600⌋) / 60⌋).toNat ++
      ':' :: (pad2 (⌊seconds - 60 * ⌊seconds / 60⌋⌋).toNat ++
        ',' :: pad3 (⌊(seconds - ⌊seconds⌋) * 1000⌋).toNat))

/-- One transcription segment as consumed by `generate_srt` (start/end
times in seconds plus text); `stop` renders the source's `segment.end`
(`end` is reserved in Lean). -/
structure Segment where
  start : ℚ
  stop : ℚ
  text : List Char
deriving DecidableEq

/-- Text cleaning applied to `segment.text` by `generate_srt`
(faster-whisper.py lines 117-129): `replace('...', '…')`, then
`replace('..', '。')`, and finally the `.strip()` applied when the SRT
entry is built. -/
def segTextForCue (t : List Char) : List Char :=
  pyStrip (pyReplace (pyReplace t ("...".toList) ("…".toList)) ("..".toList) ("。".toList))

/-- One SRT entry string built by `generate_srt` (faster-whisper.py lines
121-126): `f"{segment_index}\n{start} --> {end}\n{text}\n\n"`. -/
def cueEntryOfSegment (idx : Nat) (seg : Segment) : List Char :=
  natToDec idx ++
    '\n' :: (format_srt_time seg.start ++ " --> ".toList ++ format_srt_time seg.stop ++
      '\n' :: (segTextForCue seg.text ++ ['\n', '\n']))

/-- The `for segment in segments` loop of `generate_srt`, with
`segment_index` starting at 1 and incremented per segment. -/
def srtEntries : Nat → List Segment → List (List Char)
  | _, [] => []
  | i, seg :: rest => cueEntryOfSegment i seg :: srtEntries (i + 1) rest

/-- Concatenation of a list of strings, as in `"".join(srt_content)`. -/
def listJoin (l : List (List Char)) : List Char :=
  l.foldr (fun a b => a ++ b) []

/-- Model of `os.path.join(dir, name)` for a relative `name`, as used for
the output paths of the scripts. -/
def pyPathJoin (a b : List Char) : List Char :=
  a ++ '/' :: b

/-- Model of `os.path.basename` for POSIX paths: the part after the last
`'/'`. -/
def pyBasename (f : List Char) : List Char :=
  (pySplit ['/'] f).getLastD []

/-- Root part of `os.path.splitext(name)` for a name with no directory
separator: drop the final `'.'`-suffix unless the only dots are the
leading ones (so `".bashrc"` keeps its name and `"a.b.c"` becomes
`"a.b"`). -/
def splitExtRoot (name : List Char) : List Char :=
  let lead := name.takeWhile (fun c => c = '.')
  let rest := name.dropWhile (fun c => c = '.')
  let rev := rest.reverse
  let ext := rev.takeWhile (fun c => !(c = '.'))
  if ext.length = rev.length then name
  else lead ++ (rev.drop (ext.length + 1)).reverse

/-- Output path computed by `generate_srt` (faster-whisper.py lines
132-133): `os.path.join(srt_dir, os.path.splitext(os.path.basename(audio_file))[0] + ".srt")`. -/
def srtOutputPath (audio_file srt_dir : List Char) : List Char :=
  pyPathJoin srt_dir (splitExtRoot (pyBasename audio_file) ++ ".srt".toList)

/-- Translation of `generate_srt` (faster-whisper.py lines 99-139).  The
argument models the `segments` value (possibly `None`); the result is the
file write performed: `some (path, content)`, or `none` when the guard
`if not segments` takes the early return and nothing is written. -/
def generate_srt (segments : Option (List Segment)) (audio_file srt_dir : List Char) :
    Option (List Char × List Char) :=
  if (match segments with | none => true | some l => l.isEmpty) then none
  else some (srtOutputPath audio_file srt_dir, listJoin (srtEntries 1 (segments.getD [])))

/-- Serialization of a `Cue` in the block format emitted by
`generate_srt` (faster-whisper.py lines 121-126), with the cue's stored
fields in place of the regenerated ones: index line, time-range line
verbatim, stripped text, blank separator line. -/
def cueEntry (c : Cue) : List Char :=
  intToDec c.index ++ '\n' :: (c.time ++ '\n' :: (pyStrip c.text ++ ['\n', '\n']))

/-- Serialization of a subtitle document: the concatenation
`"".join(...)` of its cue entries, exactly as `generate_srt` writes its
output file. -/
def serialize (doc : List Cue) : List Char :=
  listJoin (doc.map cueEntry)

/-!
Embedding of `src/subtitle_downloader.py`.
-/

/-- A caption catalog: a Python dict keyed by language code, modelled as
an association list where later bindings shadow earlier ones (`dictGet`).
The payload (yt-dlp track metadata) is opaque and modelled by a string. -/
abbrev Catalog : Type := List (List Char × List Char)

/-- Lookup in a dict modelled as an association list: the latest binding
for the key wins, matching Python assignment/update semantics. -/
def dictGet (d : Catalog) (k : List Char) : Option (List Char) :=
  (d.reverse.find? (fun p => decide (p.1 = k))).map Prod.snd

/-- Model of Python `dict.update`: bindings of the second dict are added
after (hence shadow) those of the first. -/
def dictUpdate (d e : Catalog) : Catalog :=
  (d : List (List Char × List Char)) ++ e

/-- Key list of a catalog, in its internal order. -/
def catKeys (d : Catalog) : List (List Char) :=
  (d : List (List Char × List Char)).map Prod.fst

/-- Catalog construction in `get_video_info` (subtitle_downloader.py
lines 73-84): start from the empty `all_subtitles`, merge the manual
`subtitles` dict if non-empty, then merge the `automatic_captions` dict
if non-empty. -/
def buildCatalog (manual auto : Catalog) : Catalog :=
  let all0 : Catalog := []
  let all1 := if (manual : List _).isEmpty then all0 else dictUpdate all0 manual
  if (auto : List _).isEmpty then all1 else dictUpdate all1 auto

/-- Language selection loop of `get_video_info` (subtitle_downloader.py
lines 86-93): scan `preferred_languages` in order and stop at the first
code that is a key of the catalog (`if lang in all_subtitles: ... break`),
returning `none` (the initial `selected_lang = None`) when no code
matches. -/
def selectLang (catalog : Catalog) : List (List Char) → Option (List Char)
  | [] => none
  | l :: rest => if l ∈ catKeys catalog then some l else selectLang catalog rest

/-- The part of a yt-dlp `info` dict that `get_video_info` reads: the
`subtitles` and `automatic_captions` mappings (`info.get(..., {})`
defaults a missing key to the empty dict, i.e. the empty list here). -/
structure VideoInfo where
  subtitles : Catalog
  automatic_captions : Catalog

/-- Translation of `get_video_info` (subtitle_downloader.py lines 42-98).
The platform request `ydl.extract_info` is abstracted by its outcome: a
`VideoInfo` on success or an exception message on failure.  The `except`
arm (lines 95-98) returns the sentinel `(None, None)`. -/
def get_video_info (outcome : Except (List Char) VideoInfo)
    (preferred_languages : List (List Char)) : Option VideoInfo × Option (List Char) :=
  match outcome with
  | Except.error _ => (none, none)
  | Except.ok info =>
    (some info, selectLang (buildCatalog info.subtitles info.automatic_captions) preferred_languages)

/-- The configuration fields read by `generate_download_options`; `Option`
fields model the presence or absence of the corresponding key in the JSON
config dict (`config.get` supplies the defaults). -/
structure DLConfig where
  quiet : Option Bool
  no_warnings : Option Bool
  cookiefile : Option (List Char)
  srt_path : List Char
  audio_path : List Char
  output_template : Option (List Char)
deriving DecidableEq

/-- The yt-dlp option dict built by `generate_download_options`; `none`
in an `Option` field models the absence of that key from the dict. -/
structure YdlOpts where
  quiet : Bool
  no_warnings : Bool
  cookiefile : Option (List Char)
  outtmpl : Option (List Char)
  writesubtitles : Option Bool
  writeautomaticsub : Option Bool
  subtitleslangs : Option (List (List Char))
  skip_download : Option Bool
  postprocessors : Option (List (List Char))
  format : Option (List Char)
deriving DecidableEq

/-- Python truthiness of an optional string, as tested by
`if selected_lang:`: false for `None` and for the empty string. -/
def optTruthy : Option (List Char) → Bool
  | none => false
  | some s => !s.isEmpty

/-- Default of `config.get('output_template', '%(title)s [%(id)s].%(ext)s')`. -/
def defaultOutputTemplate : List Char :=
  "%(title)s [%(id)s].%(ext)s".toList

/-- Translation of `generate_download_options` (subtitle_downloader.py
lines 100-146).  The branch is Python truthiness of `selected_lang`; the
caption branch adds `cookiefile` exactly when the config has that key,
while the audio branch never adds it. -/
def generate_download_options (config : DLConfig) (selected_lang : Option (List Char)) :
    YdlOpts :=
  if optTruthy selected_lang then
    { quiet := config.quiet.getD false
      no_warnings := config.no_warnings.getD true
      cookiefile := config.cookiefile
      outtmpl := some (pyPathJoin config.srt_path (config.output_template.getD defaultOutputTemplate))
      writesubtitles := some true
      writeautomaticsub := some true
      subtitleslangs := some [selected_lang.getD []]
      skip_download := some true
      postprocessors := some []
      format := none }
  else
    { quiet := config.quiet.getD false
      no_warnings := config.no_warnings.getD true
      cookiefile := none
      outtmpl := some (pyPathJoin config.audio_path (config.output_template.getD defaultOutputTemplate))
      writesubtitles := some false
      writeautomaticsub := some false
      subtitleslangs := none
      skip_download := none
      postprocessors := none
      format := some ("worstaudio/worst".toList) }

/-- Action taken by the main loop for one URL: skip it (with a warning
printed) or run `download_item` with the generated options. -/
inductive UrlAction where
  | skip : UrlAction
  | download : YdlOpts → UrlAction
deriving DecidableEq

/-- One iteration of the main loop of `main` (subtitle_downloader.py
lines 259-287) for a single URL, with the platform request abstracted by
its outcome as in `get_video_info`: when `video_info is None` the URL is
skipped with a warning (`continue`), otherwise download options are
generated from the selected language and the download is executed. -/
def processUrl (config : DLConfig) (prefs : List (List Char))
    (outcome : Except (List Char) VideoInfo) : UrlAction :=
  match get_video_info outcome prefs with
  | (none, _) => UrlAction.skip
  | (some _, selected_lang) => UrlAction.download (generate_download_options config selected_lang)

/-- The whole main loop over the processed URL list: each URL is handled
independently, in order. -/
def processAll (config : DLConfig) (prefs : List (List Char))
    (outcomes : List (Except (List Char) VideoInfo)) : List UrlAction :=
  outcomes.map (processUrl config prefs)

/-!
Lemmas about the Python string model: `pySplit`.
-/

/-- The fuel of `splitGo` is irrelevant once it exceeds the string length. -/
theorem splitGo_fuel (sep : List Char) (hsep : sep ≠ []) :
    ∀ (f g : Nat) (s : List Char), s.length < f → s.length < g →
      splitGo sep f s = splitGo sep g s := by
  intro f
  induction f with
  | zero => intro g s hf _; exact absurd hf (Nat.not_lt_zero _)
  | succ f ih =>
    intro g s hf hg
    have hl : 1 ≤ sep.length := List.length_pos.mpr hsep
    cases s with
    | nil =>
      cases g with
      | zero => exact absurd hg (Nat.not_lt_zero _)
      | succ g => rfl
    | cons c rest =>
      cases g with
      | zero => exact absurd hg (Nat.not_lt_zero _)
      | succ g =>
        simp only [splitGo]
        by_cases h : sep <+: c :: rest
        · rw [if_pos h, if_pos h]
          have hd : ((c :: rest).drop sep.length).length = rest.length + 1 - sep.length := by
            simp [List.length_drop]
          have hlen : (c :: rest).length < f + 1 := hf
          simp only [List.length_cons] at hlen hg
          congr 1
          exact ih g _ (by omega) (by omega)
        · rw [if_neg h, if_neg h]
          simp only [List.length_cons] at hf hg
          congr 1
          exact ih g rest (by omega) (by omega)

/-- Splitting the empty string gives one empty piece. -/
theorem pySplit_nil (sep : List Char) : pySplit sep [] = [[]] := rfl

/-- Unfolding `pySplit` when the separator occurs at the head. -/
theorem pySplit_pos (sep : List Char) (hsep : sep ≠ []) (c : Char) (rest : List Char)
    (h : sep <+: c :: rest) :
    pySplit sep (c :: rest) = [] :: pySplit sep ((c :: rest).drop sep.length) := by
  have hl : 1 ≤ sep.length := List.length_pos.mpr hsep
  show splitGo sep ((c :: rest).length + 1) (c :: rest) = _
  simp only [List.length_cons, splitGo]
  rw [if_pos h]
  congr 1
  refine splitGo_fuel sep hsep _ _ _ ?hf ?hg
  · simp only [List.length_drop, List.length_cons]; omega
  · omega

/-- Unfolding `pySplit` when the separator does not occur at the head. -/
theorem pySplit_neg (sep : List Char) (c : Char) (rest : List Char)
    (h : ¬ sep <+: c :: rest) :
    pySplit sep (c :: rest) = consHead c (pySplit sep rest) := by
  show splitGo sep ((c :: rest).length + 1) (c :: rest) = _
  simp only [List.length_cons, splitGo]
  rw [if_neg h]
  rfl

/-- A split result is never the empty list of pieces. -/
theorem splitGo_ne_nil (sep : List Char) (f : Nat) (s : List Char) : splitGo sep f s ≠ [] := by
  cases f with
  | zero => simp [splitGo]
  | succ f =>
    cases s with
    | nil => simp [splitGo]
    | cons c rest =>
      simp only [splitGo]
      split
      · simp
      · cases h : splitGo sep f rest <;> simp [consHead]

/-- A split result is never the empty list of pieces. -/
theorem pySplit_ne_nil (sep s : List Char) : pySplit sep s ≠ [] :=
  splitGo_ne_nil sep (s.length + 1) s

/-- A string in which the separator never occurs (at no suffix position)
splits into the single piece it is. -/
theorem pySplit_eq_single (sep : List Char) (hsep : sep ≠ []) :
    ∀ s : List Char, (∀ t, t <:+ s → ¬ sep <+: t) → pySplit sep s = [s] := by
  intro s
  induction s with
  | nil => intro _; rfl
  | cons c rest ih =>
    intro H
    rw [pySplit_neg sep c rest (H _ (List.suffix_refl _))]
    rw [ih (fun t ht => H t (ht.trans (List.suffix_cons c rest)))]
    rfl

/-- Splitting a string of the form `part ++ sep ++ rest` cuts at the
displayed separator, provided no earlier occurrence of `sep` starts
inside `part`. -/
theorem pySplit_append_sep (sep : List Char) (hsep : sep ≠ []) :
    ∀ (part rest : List Char),
      (∀ t, t <:+ part → t ≠ [] → ¬ sep <+: (t ++ sep ++ rest)) →
      pySplit sep (part ++ sep ++ rest) = part :: pySplit sep rest := by
  intro part
  induction part with
  | nil =>
    intro rest _
    obtain ⟨c, sep2, rfl⟩ : ∃ c sep2, sep = c :: sep2 := by
      cases sep with
      | nil => exact absurd rfl hsep
      | cons c s => exact ⟨c, s, rfl⟩
    have h1 : ([] : List Char) ++ (c :: sep2) ++ rest = c :: (sep2 ++ rest) := by simp
    rw [h1]
    have hpre : (c :: sep2) <+: c :: (sep2 ++ rest) := ⟨rest, by simp⟩
    rw [pySplit_pos (c :: sep2) hsep c (sep2 ++ rest) hpre]
    have h2 : (c :: (sep2 ++ rest)).drop (c :: sep2).length = rest := by
      have : c :: (sep2 ++ rest) = (c :: sep2) ++ rest := by simp
      rw [this, List.drop_left]
    rw [h2]
  | cons c part2 ih =>
    intro rest H
    have hshape : (c :: part2) ++ sep ++ rest = c :: (part2 ++ sep ++ rest) := by simp
    have hnp : ¬ sep <+: c :: (part2 ++ sep ++ rest) := by
      rw [← hshape]
      exact H (c :: part2) (List.suffix_refl _) (by simp)
    rw [hshape, pySplit_neg sep c _ hnp]
    rw [ih rest (fun t ht htne => H t (ht.trans (List.suffix_cons c part2)) htne)]
    rfl

/-- Rejoining the pieces of a split with the separator restores the
original string (`sep.join(s.split(sep)) == s`). -/
theorem pyIntercalate_pySplit (sep : List Char) (hsep : sep ≠ []) :
    ∀ s : List Char, pyIntercalate sep (pySplit sep s) = s := by
  have hl : 1 ≤ sep.length := List.length_pos.mpr hsep
  suffices H : ∀ (n : Nat) (s : List Char), s.length ≤ n →
      pyIntercalate sep (pySplit sep s) = s by
    intro s; exact H s.length s le_rfl
  intro n
  induction n with
  | zero =>
    intro s hs
    have : s = [] := List.length_eq_zero.mp (Nat.le_zero.mp hs)
    subst this; rfl
  | succ n ih =>
    intro s hs
    cases s with
    | nil => rfl
    | cons c rest =>
      simp only [List.length_cons] at hs
      by_cases h : sep <+: c :: rest
      · rw [pySplit_pos sep hsep c rest h]
        obtain ⟨t, ht⟩ := h
        have hdrop : (c :: rest).drop sep.length = t := by rw [← ht, List.drop_left]
        rw [hdrop]
        obtain ⟨y, ys, hys⟩ : ∃ y ys, pySplit sep t = y :: ys := by
          cases hx : pySplit sep t with
          | nil => exact absurd hx (pySplit_ne_nil sep t)
          | cons y ys => exact ⟨y, ys, rfl⟩
        have hlt : t.length ≤ n := by
          have := congrArg List.length ht
          simp only [List.length_append, List.length_cons] at this
          omega
        rw [hys]
        show ([] : List Char) ++ sep ++ pyIntercalate sep (y :: ys) = c :: rest
        rw [← hys, ih t hlt]
        simpa using ht
      · rw [pySplit_neg sep c rest h]
        obtain ⟨y, ys, hys⟩ : ∃ y ys, pySplit sep rest = y :: ys := by
          cases hx : pySplit sep rest with
          | nil => exact absurd hx (pySplit_ne_nil sep rest)
          | cons y ys => exact ⟨y, ys, rfl⟩
        have hrest := ih rest (by omega)
        rw [hys] at hrest ⊢
        cases ys with
        | nil =>
          show c :: y = c :: rest
          simp only [pyIntercalate] at hrest
          rw [hrest]
        | cons z zs =>
          show (c :: y) ++ sep ++ pyIntercalate sep (z :: zs) = c :: rest
          simp only [pyIntercalate] at hrest
          rw [← hrest]
          simp

/-!
Lemmas about the Python string model: stripping and blank-line detection.
-/

/-- `dropWhile` skips a block that satisfies the predicate throughout. -/
theorem dropWhile_append_all (p : Char → Bool) (l1 l2 : List Char)
    (h : ∀ a ∈ l1, p a = true) :
    (l1 ++ l2).dropWhile p = l2.dropWhile p := by
  induction l1 with
  | nil => rfl
  | cons a l ih =>
    have ha : p a = true := h a (by simp)
    simp only [List.cons_append, List.dropWhile_cons, ha, if_true]
    exact ih (fun b hb => h b (by simp [hb]))

/-- The head of a `dropWhile` result fails the predicate. -/
theorem head_dropWhile (p : Char → Bool) :
    ∀ (l : List Char) (x : Char), (l.dropWhile p).head? = some x → p x = false := by
  intro l
  induction l with
  | nil => intro x hx; simp [List.dropWhile_nil] at hx
  | cons c rest ih =>
    intro x hx
    rw [List.dropWhile_cons] at hx
    by_cases hc : p c = true
    · rw [if_pos hc] at hx
      exact ih x hx
    · rw [if_neg hc] at hx
      simp only [List.head?_cons, Option.some.injEq] at hx
      subst hx
      exact Bool.eq_false_iff.mpr hc

/-- `lstrip` keeps a string whose first character is not whitespace. -/
theorem pyLStrip_cons (c : Char) (t : List Char) (h : isPySpace c = false) :
    pyLStrip (c :: t) = c :: t := by
  simp [pyLStrip, List.dropWhile_cons, h]

/-- `rstrip` keeps a string whose last character is not whitespace. -/
theorem pyRStrip_eq_self (s : List Char)
    (h : ∀ x, s.getLast? = some x → isPySpace x = false) : pyRStrip s = s := by
  unfold pyRStrip
  cases hs : s.reverse with
  | nil =>
    have : s = [] := by
      have := congrArg List.reverse hs
      simpa using this
    subst this
    rfl
  | cons c t =>
    have hc : isPySpace c = false := by
      refine h c ?hc
      rw [← List.head?_reverse, hs]
      rfl
    rw [List.dropWhile_cons, if_neg (by simp [hc]), ← hs, List.reverse_reverse]

/-- `rstrip` removes a trailing all-whitespace block. -/
theorem pyRStrip_append_spaces (x t : List Char) (h : ∀ c ∈ t, isPySpace c = true) :
    pyRStrip (x ++ t) = pyRStrip x := by
  unfold pyRStrip
  rw [List.reverse_append]
  rw [dropWhile_append_all isPySpace t.reverse x.reverse (fun c hc => h c (by simpa using hc))]

/-- `strip` keeps a string whose two ends are not whitespace. -/
theorem pyStrip_eq_self (c : Char) (t : List Char) (hc : isPySpace c = false)
    (h : ∀ x, (c :: t).getLast? = some x → isPySpace x = false) :
    pyStrip (c :: t) = c :: t := by
  unfold pyStrip
  rw [pyLStrip_cons c t hc, pyRStrip_eq_self (c :: t) h]

/-- A stripped string is a prefix of the `lstrip` result. -/
theorem pyRStrip_isPre (y : List Char) : pyRStrip y <+: y := by
  refine ⟨(y.reverse.takeWhile isPySpace).reverse, ?he⟩
  unfold pyRStrip
  rw [← List.reverse_append, List.takeWhile_append_dropWhile, List.reverse_reverse]

/-- The `lstrip` result is a suffix of the original string. -/
theorem pyLStrip_isSuf (y : List Char) : pyLStrip y <:+ y :=
  ⟨y.takeWhile isPySpace, by
    unfold pyLStrip
    exact List.takeWhile_append_dropWhile isPySpace y⟩

/-- The head of a non-empty stripped string is not whitespace. -/
theorem pyStrip_head (s : List Char) (x : Char) (hx : (pyStrip s).head? = some x) :
    isPySpace x = false := by
  have hne : pyStrip s ≠ [] := by
    intro h
    rw [h] at hx
    exact Option.noConfusion hx
  obtain ⟨t, ht⟩ := pyRStrip_isPre (pyLStrip s)
  have : (pyStrip s).head? = (pyLStrip s).head? := by
    unfold pyStrip at hne ⊢
    cases hs : pyRStrip (pyLStrip s) with
    | nil => exact absurd hs hne
    | cons c u =>
      rw [hs] at ht
      rw [← ht]
      rfl
  rw [this] at hx
  exact head_dropWhile isPySpace s x hx

/-- The last character of a non-empty stripped string is not whitespace. -/
theorem pyStrip_getLast (s : List Char) (x : Char) (hx : (pyStrip s).getLast? = some x) :
    isPySpace x = false := by
  unfold pyStrip pyRStrip at hx
  rw [List.getLast?_reverse] at hx
  exact head_dropWhile isPySpace (pyLStrip s).reverse x hx

/-- A string with two consecutive newlines as a prefix crosses a
blank-line boundary. -/
theorem hasNN_of_pre (l : List Char) (h : ['\n', '\n'] <+: l) : hasNN l = true := by
  obtain ⟨t, ht⟩ := h
  subst ht
  simp [hasNN]

/-- `hasNN` is monotone under the suffix order. -/
theorem hasNN_suffix_mono : ∀ (s t : List Char), t <:+ s → hasNN t = true → hasNN s = true := by
  intro s
  induction s with
  | nil =>
    intro t ht hn
    rw [List.suffix_nil.mp ht] at hn
    simp [hasNN] at hn
  | cons c rest ih =>
    intro t ht hn
    rcases List.suffix_cons_iff.mp ht with heq | hsuf
    · rw [← heq]; exact hn
    · have hr := ih t hsuf hn
      cases rest with
      | nil => simp [hasNN] at hr
      | cons d rest2 => simp [hasNN, hr]

/-- A string without a blank-line boundary has no `"\n\n"` prefix, nor
does any of its suffixes. -/
theorem no_nn_pre_of_suffix (s : List Char) (hs : hasNN s = false) :
    ∀ t, t <:+ s → ¬ (['\n', '\n'] <+: t) := by
  intro t ht hpre
  have : hasNN s = true := hasNN_suffix_mono s t ht (hasNN_of_pre t hpre)
  rw [hs] at this
  exact Bool.noConfusion this

/-- Prepending a character preserves `hasNN = false` when it does not
form a newline pair with the head. -/
theorem hasNN_cons_false (c : Char) (l : List Char)
    (hpair : ∀ b, l.head? = some b → b = '\n' → c ≠ '\n')
    (hl : hasNN l = false) : hasNN (c :: l) = false := by
  cases l with
  | nil => rfl
  | cons b l2 =>
    show ((c = '\n' && b = '\n') || hasNN (b :: l2)) = false
    rw [hl, Bool.or_false]
    by_cases hb : b = '\n'
    · have hc : c ≠ '\n' := hpair b rfl hb
      simp [hc]
    · simp [hb]

/-- Concatenation preserves `hasNN = false` when the junction does not
create a newline pair. -/
theorem hasNN_append_false : ∀ (x y : List Char), hasNN x = false → hasNN y = false →
    (∀ a b, x.getLast? = some a → y.head? = some b → ¬(a = '\n' ∧ b = '\n')) →
    hasNN (x ++ y) = false := by
  intro x
  induction x with
  | nil => intro y _ hy _; exact hy
  | cons c x2 ih =>
    intro y hx hy hb
    cases x2 with
    | nil =>
      show hasNN (c :: y) = false
      refine hasNN_cons_false c y ?hp hy
      intro b hby hbn hcn
      exact hb c b rfl hby ⟨hcn, hbn⟩
    | cons d x3 =>
      have hx2 : hasNN (d :: x3) = false := by
        have : ((c = '\n' && d = '\n') || hasNN (d :: x3)) = false := hx
        exact (Bool.or_eq_false_iff.mp this).2
      have hcd : (c = '\n' && d = '\n') = false := by
        have : ((c = '\n' && d = '\n') || hasNN (d :: x3)) = false := hx
        exact (Bool.or_eq_false_iff.mp this).1
      have ht := ih y hx2 hy (fun a b ha hby => hb a b (by simpa using ha) hby)
      show ((c = '\n' && d = '\n') || hasNN (d :: x3 ++ y)) = false
      rw [hcd, Bool.false_or]
      exact ht

/-- A string without newlines has no blank-line boundary. -/
theorem hasNN_of_nomem : ∀ (l : List Char), '\n' ∉ l → hasNN l = false := by
  intro l
  induction l with
  | nil => intro _; rfl
  | cons c rest ih =>
    intro h
    refine hasNN_cons_false c rest ?hp (ih (fun hm => h (by simp [hm])))
    intro b hb hbn
    intro hcn
    exact h (by simp [hcn])

/-!
Lemmas about the Python string model: decimal rendering and `int(...)`.
-/

/-- One-step unfolding of the fuelled renderer. -/
theorem natToDecGo_succ (f n : Nat) (acc : List Char) :
    natToDecGo (f + 1) n acc =
      if n < 10 then Nat.digitChar n :: acc
      else natToDecGo f (n / 10) (Nat.digitChar (n % 10) :: acc) := rfl

/-- Unfolding of the fuelled renderer on a single digit. -/
theorem natToDecGo_small (f n : Nat) (acc : List Char) (h : n < 10) :
    natToDecGo (f + 1) n acc = decDigits n ++ acc := by
  by_cases hn : n = 0
  · subst hn
    rfl
  · rw [natToDecGo_succ, if_pos h]
    unfold decDigits
    rw [if_neg hn, Nat.digits_def' (by norm_num) (Nat.pos_of_ne_zero hn)]
    rw [Nat.div_eq_of_lt h, Nat.digits_zero, Nat.mod_eq_of_lt h]
    simp

/-- The fuelled renderer computes the mathematical decimal digits as soon
as the fuel bounds the input. -/
theorem natToDecGo_spec : ∀ (f n : Nat) (acc : List Char), n < 10 ^ (f + 1) →
    natToDecGo (f + 1) n acc = decDigits n ++ acc := by
  intro f
  induction f with
  | zero =>
    intro n acc h
    exact natToDecGo_small 0 n acc (by simpa using h)
  | succ f ih =>
    intro n acc h
    by_cases hn : n < 10
    · exact natToDecGo_small (f + 1) n acc hn
    · rw [natToDecGo_succ, if_neg hn]
      have hdiv : n / 10 < 10 ^ (f + 1) := by
        rw [Nat.div_lt_iff_lt_mul (by norm_num)]
        calc n < 10 ^ (f + 1 + 1) := h
        _ = 10 ^ (f + 1) * 10 := by ring
      rw [ih (n / 10) (Nat.digitChar (n % 10) :: acc) hdiv]
      have hne : n ≠ 0 := by omega
      have hdne : n / 10 ≠ 0 := by
        have : 10 ≤ n := by omega
        have := Nat.one_le_div_iff (by norm_num : 0 < 10) |>.mpr this
        omega
      unfold decDigits
      rw [if_neg hne, if_neg hdne]
      rw [Nat.digits_def' (by norm_num : (1:ℕ) < 10) (Nat.pos_of_ne_zero hne)]
      simp [List.reverse_cons]

/-- The Python renderer agrees with the mathematical decimal digits. -/
theorem natToDec_eq_decDigits (n : Nat) : natToDec n = decDigits n := by
  unfold natToDec
  have h : n < 10 ^ (n + 1) := by
    calc n < 2 ^ n := Nat.lt_two_pow n
    _ ≤ 10 ^ n := Nat.pow_le_pow_left (by norm_num) n
    _ ≤ 10 ^ (n + 1) := Nat.pow_le_pow_right (by norm_num) (Nat.le_succ n)
  rw [natToDecGo_spec n n [] h, List.append_nil]

/-- Decimal renderings are never empty. -/
theorem natToDec_ne_nil (n : Nat) : natToDec n ≠ [] := by
  rw [natToDec_eq_decDigits]
  unfold decDigits
  split
  · simp
  · simp only [ne_eq, List.map_eq_nil_iff, List.reverse_eq_nil_iff]
    intro hd
    next hne => exact (Nat.digits_ne_nil_iff_ne_zero.mpr hne) hd

/-- Digit characters of values below ten are ASCII digits. -/
theorem digitChar_isDigit (d : Nat) (h : d < 10) : (Nat.digitChar d).isDigit = true := by
  interval_cases d <;> decide

/-- Reading back a digit character below ten recovers its value. -/
theorem charDigitVal_digitChar (d : Nat) (h : d < 10) :
    charDigitVal (Nat.digitChar d) = d := by
  interval_cases d <;> decide

/-- Decimal renderings consist of ASCII digits. -/
theorem natToDec_all_digit (n : Nat) : ∀ c ∈ natToDec n, c.isDigit = true := by
  rw [natToDec_eq_decDigits]
  unfold decDigits
  split
  · intro c hc
    simp only [List.mem_singleton] at hc
    subst hc
    decide
  · intro c hc
    simp only [List.mem_map, List.mem_reverse] at hc
    obtain ⟨d, hd, rfl⟩ := hc
    exact digitChar_isDigit d (Nat.digits_lt_base (by norm_num) hd)

/-- ASCII digits are not Python whitespace. -/
theorem isDigit_not_space (c : Char) (h : c.isDigit = true) : isPySpace c = false := by
  by_contra hsp
  have hsp2 : isPySpace c = true := by
    cases hx : isPySpace c
    · exact absurd hx hsp
    · rfl
  unfold isPySpace at hsp2
  simp only [Bool.or_eq_true, decide_eq_true_eq] at hsp2
  rcases hsp2 with ((((h1 | h1) | h1) | h1) | h1) | h1 <;> (subst h1; exact absurd h (by decide))

/-- ASCII digits are not the underscore. -/
theorem isDigit_ne_underscore (c : Char) (h : c.isDigit = true) : ¬(c = '_') := by
  intro he
  subst he
  exact absurd h (by decide)

/-- ASCII digits are not newlines. -/
theorem isDigit_ne_newline (c : Char) (h : c.isDigit = true) : ¬(c = '\n') := by
  intro he
  subst he
  exact absurd h (by decide)

/-- On an all-digit string `goVal` folds up the decimal value. -/
theorem goVal_all_digit : ∀ (l : List Char) (a : Nat), (∀ c ∈ l, c.isDigit = true) →
    goVal a l = some (l.foldl (fun x c => 10 * x + charDigitVal c) a) := by
  intro l
  induction l with
  | nil => intro a _; rfl
  | cons c rest ih =>
    intro a h
    have hc : c.isDigit = true := h c (by simp)
    unfold goVal
    rw [if_neg (isDigit_ne_underscore c hc), if_pos hc]
    rw [ih (10 * a + charDigitVal c) (fun d hd => h d (by simp [hd]))]
    rfl

/-- On a non-empty all-digit string `pyDigitsVal` folds up the decimal
value. -/
theorem pyDigitsVal_all_digit (l : List Char) (hne : l ≠ [])
    (hd : ∀ c ∈ l, c.isDigit = true) :
    pyDigitsVal l = some (l.foldl (fun x c => 10 * x + charDigitVal c) 0) := by
  cases l with
  | nil => exact absurd rfl hne
  | cons c rest =>
    have hc : c.isDigit = true := hd c (by simp)
    show (if c.isDigit = true then goVal (charDigitVal c) rest else none) = _
    rw [if_pos hc, goVal_all_digit rest (charDigitVal c) (fun d hdm => hd d (by simp [hdm]))]
    have : (10 : Nat) * 0 + charDigitVal c = charDigitVal c := by omega
    simp [this]

/-- Folding decimal digits over a reversed digit list recovers
`Nat.ofDigits`. -/
theorem foldl_ten_reverse : ∀ (l : List Nat) (a : Nat),
    (l.reverse).foldl (fun x d => 10 * x + d) a = a * 10 ^ l.length + Nat.ofDigits 10 l := by
  intro l
  induction l with
  | nil => intro a; simp
  | cons d l ih =>
    intro a
    rw [List.reverse_cons, List.foldl_append]
    rw [ih a]
    simp only [List.foldl_cons, List.foldl_nil, Nat.ofDigits_cons, List.length_cons]
    ring

/-- Reading back the digit characters of `decDigits n` yields `n`. -/
theorem foldl_decDigits (n : Nat) :
    (decDigits n).foldl (fun x c => 10 * x + charDigitVal c) 0 = n := by
  by_cases hn : n = 0
  · subst hn; decide
  · unfold decDigits
    rw [if_neg hn]
    rw [List.foldl_map]
    have hlt : ∀ d ∈ (Nat.digits 10 n).reverse, d < 10 := by
      intro d hdm
      exact Nat.digits_lt_base (by norm_num) (List.mem_reverse.mp hdm)
    have hcongr : ∀ (l : List Nat), (∀ d ∈ l, d < 10) → ∀ a : Nat,
        l.foldl (fun x d => 10 * x + charDigitVal (Nat.digitChar d)) a =
        l.foldl (fun x d => 10 * x + d) a := by
      intro l
      induction l with
      | nil => intro _ a; rfl
      | cons d l ihl =>
        intro hl a
        simp only [List.foldl_cons]
        rw [charDigitVal_digitChar d (hl d (by simp))]
        exact ihl (fun e he => hl e (by simp [he])) _
    rw [hcongr _ hlt 0]
    rw [foldl_ten_reverse]
    simp [Nat.ofDigits_digits]

/-- The decimal rendering of `n` parses back to `n`. -/
theorem pyDigitsVal_natToDec (n : Nat) : pyDigitsVal (natToDec n) = some n := by
  rw [natToDec_eq_decDigits]
  rw [pyDigitsVal_all_digit (decDigits n) ?hne ?hdig]
  · rw [foldl_decDigits]
  case hne =>
    rw [← natToDec_eq_decDigits]
    exact natToDec_ne_nil n
  case hdig =>
    rw [← natToDec_eq_decDigits]
    exact natToDec_all_digit n

/-- A non-empty all-digit string is untouched by `strip` and parses via
the unsigned branch of `pyInt`. -/
theorem pyInt_all_digit (c : Char) (rest : List Char)
    (hd : ∀ x ∈ c :: rest, x.isDigit = true) :
    pyInt (c :: rest) = (pyDigitsVal (c :: rest)).map (fun v => (v : Int)) := by
  have hstrip : pyStrip (c :: rest) = c :: rest := by
    refine pyStrip_eq_self c rest (isDigit_not_space c (hd c (by simp))) ?hl
    intro x hx
    have hxm : x ∈ c :: rest := by
      rw [List.getLast?_eq_getLast (c :: rest) (by simp)] at hx
      simp only [Option.some.injEq] at hx
      rw [← hx]
      exact List.getLast_mem (by simp)
    exact isDigit_not_space x (hd x hxm)
  have hplus : ¬(c = '+') := by
    intro he
    have := hd c (by simp)
    rw [he] at this
    exact absurd this (by decide)
  have hminus : ¬(c = '-') := by
    intro he
    have := hd c (by simp)
    rw [he] at this
    exact absurd this (by decide)
  unfold pyInt
  rw [hstrip]
  simp only [if_neg hplus, if_neg hminus]

/-- Python `int` applied to the rendering of a natural number returns
that number. -/
theorem pyInt_natToDec (n : Nat) : pyInt (natToDec n) = some (n : Int) := by
  obtain ⟨c, rest, hcr⟩ : ∃ c rest, natToDec n = c :: rest := by
    cases hx : natToDec n with
    | nil => exact absurd hx (natToDec_ne_nil n)
    | cons c rest => exact ⟨c, rest, rfl⟩
  rw [hcr]
  rw [pyInt_all_digit c rest (fun x hx => natToDec_all_digit n x (hcr ▸ hx))]
  rw [← hcr, pyDigitsVal_natToDec]
  rfl

/-!
Round trip between `serialize` and `parse_srt`.
-/

/-- A well-formed cue in the sense of the specification's subtitle
document model: a positive index, a non-empty single-line time-range
literal, and text that is non-blank and has no blank lines (i.e. its
stripped form is non-empty and crosses no `"\n\n"` boundary). -/
def ValidCue (c : Cue) : Prop :=
  0 < c.index ∧ c.time ≠ [] ∧ '\n' ∉ c.time ∧
    pyStrip c.text ≠ [] ∧ hasNN (pyStrip c.text) = false

instance : DecidablePred ValidCue := fun c => by
  unfold ValidCue
  infer_instance

/-- A cue with its text whitespace-trimmed; the round trip recovers the
document up to this trimming. -/
def trimCue (c : Cue) : Cue :=
  ⟨c.index, c.time, pyStrip c.text⟩

/-- The serialized block of one cue without its trailing blank-line
separator. -/
def cueBody (c : Cue) : List Char :=
  intToDec c.index ++ '\n' :: (c.time ++ '\n' :: pyStrip c.text)

/-- A cue entry is its body followed by the blank-line separator. -/
theorem cueEntry_eq (c : Cue) : cueEntry c = cueBody c ++ ['\n', '\n'] := by
  unfold cueEntry cueBody
  simp

/-- Membership extraction from `getLast?`. -/
theorem mem_of_getLast?_eq (l : List Char) (x : Char) (h : l.getLast? = some x) : x ∈ l := by
  cases l with
  | nil => exact Option.noConfusion h
  | cons c rest =>
    rw [List.getLast?_eq_getLast (c :: rest) (by simp)] at h
    simp only [Option.some.injEq] at h
    rw [← h]
    exact List.getLast_mem (by simp)

/-- Membership extraction from `head?`. -/
theorem mem_of_head?_eq (l : List Char) (x : Char) (h : l.head? = some x) : x ∈ l := by
  cases l with
  | nil => exact Option.noConfusion h
  | cons c rest =>
    simp only [List.head?_cons, Option.some.injEq] at h
    simp [← h]

/-- No occurrence of `"\n\n"` starts inside a nonempty suffix of a body
that has no blank-line boundary and does not end in a newline. -/
theorem nn_junction (body rest2 : List Char) (hb : hasNN body = false)
    (hlast : ∀ x, body.getLast? = some x → ¬ x = '\n') :
    ∀ t, t <:+ body → t ≠ [] → ¬ (['\n', '\n'] <+: (t ++ ['\n', '\n'] ++ rest2)) := by
  intro t ht htne hpre
  cases t with
  | nil => exact htne rfl
  | cons a t2 =>
    cases t2 with
    | nil =>
      have h2 : ([a] ++ ['\n', '\n'] ++ rest2) = a :: '\n' :: '\n' :: rest2 := by simp
      rw [h2] at hpre
      have h3 : '\n' = a := (List.cons_prefix_cons.mp hpre).1
      have hal : body.getLast? = some a := by
        obtain ⟨pre, hpre2⟩ := ht
        rw [← hpre2]
        exact List.getLast?_concat pre
      exact hlast a hal h3.symm
    | cons b t3 =>
      have h2 : (a :: b :: t3) ++ ['\n', '\n'] ++ rest2 =
          a :: b :: (t3 ++ ['\n', '\n'] ++ rest2) := by simp
      rw [h2] at hpre
      obtain ⟨h3, h4⟩ := List.cons_prefix_cons.mp hpre
      have h5 : '\n' = b := (List.cons_prefix_cons.mp h4).1
      have h6 : hasNN (a :: b :: t3) = true := by
        rw [← h3, ← h5]
        simp [hasNN]
      have h7 := hasNN_suffix_mono body _ ht h6
      rw [hb] at h7
      exact Bool.noConfusion h7

/-- No occurrence of a single-character separator starts inside a
nonempty suffix of a part that avoids that character. -/
theorem single_char_junction (d : Char) (part rest2 : List Char) (hmem : d ∉ part) :
    ∀ t, t <:+ part → t ≠ [] → ¬ ([d] <+: (t ++ [d] ++ rest2)) := by
  intro t ht htne hpre
  cases t with
  | nil => exact htne rfl
  | cons a t2 =>
    have h2 : (a :: t2) ++ [d] ++ rest2 = a :: (t2 ++ [d] ++ rest2) := by simp
    rw [h2] at hpre
    have h3 : d = a := (List.cons_prefix_cons.mp hpre).1
    apply hmem
    rw [h3]
    exact ht.subset (by simp)

/-- Structural facts about the body of a valid cue: non-empty, headed by
a digit, ending in a non-whitespace character, with no blank-line
boundary inside. -/
theorem cueBody_facts (c : Cue) (h : ValidCue c) :
    hasNN (cueBody c) = false ∧ cueBody c ≠ [] ∧
      (∀ x, (cueBody c).head? = some x → isPySpace x = false) ∧
      (∀ x, (cueBody c).getLast? = some x → isPySpace x = false) := by
  obtain ⟨hidx, htne, htnl, hstne, hstnn⟩ := h
  have hint : intToDec c.index = natToDec c.index.toNat := by
    unfold intToDec
    rw [if_neg (by omega)]
  obtain ⟨d, ds, hds⟩ : ∃ d ds, natToDec c.index.toNat = d :: ds := by
    cases hx : natToDec c.index.toNat with
    | nil => exact absurd hx (natToDec_ne_nil _)
    | cons d ds => exact ⟨d, ds, rfl⟩
  have hdig : ∀ x ∈ natToDec c.index.toNat, x.isDigit = true := natToDec_all_digit _
  have hdignl : '\n' ∉ natToDec c.index.toNat := by
    intro hm
    exact isDigit_ne_newline '\n' (hdig '\n' hm) rfl
  obtain ⟨s0, st2, hst⟩ : ∃ s0 st2, pyStrip c.text = s0 :: st2 := by
    cases hx : pyStrip c.text with
    | nil => exact absurd hx hstne
    | cons s0 st2 => exact ⟨s0, st2, rfl⟩
  have hsthead : isPySpace s0 = false := pyStrip_head c.text s0 (by rw [hst]; rfl)
  obtain ⟨t0, time2, htime⟩ : ∃ t0 time2, c.time = t0 :: time2 := by
    cases hx : c.time with
    | nil => exact absurd hx htne
    | cons t0 time2 => exact ⟨t0, time2, rfl⟩
  have hstlast : ∀ x, (pyStrip c.text).getLast? = some x → isPySpace x = false :=
    fun x hx => pyStrip_getLast c.text x hx
  -- hasNN of the inner pieces
  have hnn_st_cons : hasNN ('\n' :: pyStrip c.text) = false := by
    refine hasNN_cons_false '\n' (pyStrip c.text) ?hp1 hstnn
    intro b hb hbn _
    have := pyStrip_head c.text b hb
    rw [hbn] at this
    exact absurd this (by decide)
  have hnn_time : hasNN c.time = false := hasNN_of_nomem c.time htnl
  have hnn_mid : hasNN (c.time ++ '\n' :: pyStrip c.text) = false := by
    refine hasNN_append_false c.time ('\n' :: pyStrip c.text) hnn_time hnn_st_cons ?hb1
    intro a b ha hbhead hab
    apply htnl
    rw [← hab.1]
    exact mem_of_getLast?_eq c.time a ha
  have hnn_tail : hasNN ('\n' :: (c.time ++ '\n' :: pyStrip c.text)) = false := by
    refine hasNN_cons_false '\n' _ ?hp2 hnn_mid
    intro b hb hbn _
    rw [htime] at hb
    simp only [List.cons_append, List.head?_cons, Option.some.injEq] at hb
    apply htnl
    rw [htime, hb, hbn]
    simp
  have hnn_body : hasNN (cueBody c) = false := by
    unfold cueBody
    rw [hint]
    refine hasNN_append_false _ _ (hasNN_of_nomem _ hdignl) hnn_tail ?hb2
    intro a b ha hbhead hab
    apply hdignl
    rw [← hab.1]
    exact mem_of_getLast?_eq _ a ha
  refine ⟨hnn_body, ?hne, ?hhead, ?hlast⟩
  case hne =>
    unfold cueBody
    rw [hint, hds]
    simp
  case hhead =>
    intro x hx
    unfold cueBody at hx
    rw [hint, hds] at hx
    simp only [List.cons_append, List.head?_cons, Option.some.injEq] at hx
    rw [← hx]
    refine isDigit_not_space d (hdig d ?hm)
    rw [hds]
    simp
  case hlast =>
    intro x hx
    have hlast2 : (cueBody c).getLast? = (pyStrip c.text).getLast? := by
      unfold cueBody
      rw [hst]
      have h1 : intToDec c.index ++ ('\n' :: (c.time ++ '\n' :: (s0 :: st2))) =
          ((intToDec c.index ++ '\n' :: c.time) ++ ['\n']) ++ (s0 :: st2) := by simp
      rw [h1, List.getLast?_append]
      rw [List.getLast?_eq_getLast (s0 :: st2) (by simp)]
      rfl
    rw [hlast2] at hx
    exact pyStrip_getLast c.text x hx

/-- The serialization of a non-empty document is the interleaving of cue
bodies with blank-line separators, plus one trailing separator. -/
theorem serialize_eq : ∀ (D : List Cue), D ≠ [] →
    serialize D = pyIntercalate ['\n', '\n'] (D.map cueBody) ++ ['\n', '\n'] := by
  intro D
  induction D with
  | nil => intro h; exact absurd rfl h
  | cons c D2 ih =>
    intro _
    cases D2 with
    | nil =>
      show listJoin [cueEntry c] = pyIntercalate ['\n', '\n'] [cueBody c] ++ ['\n', '\n']
      unfold listJoin
      simp [pyIntercalate, cueEntry_eq c]
    | cons d D3 =>
      have h1 : serialize (c :: d :: D3) = cueEntry c ++ serialize (d :: D3) := rfl
      rw [h1, ih (by simp), cueEntry_eq c]
      show (cueBody c ++ ['\n', '\n']) ++
          (pyIntercalate ['\n', '\n'] ((d :: D3).map cueBody) ++ ['\n', '\n']) =
        pyIntercalate ['\n', '\n'] (cueBody c :: (d :: D3).map cueBody) ++ ['\n', '\n']
      rw [List.map_cons]
      show _ = (cueBody c ++ ['\n', '\n'] ++
        pyIntercalate ['\n', '\n'] (cueBody d :: D3.map cueBody)) ++ ['\n', '\n']
      simp [List.append_assoc]

/-- An interleaving headed by a non-empty piece is non-empty. -/
theorem pyIntercalate_ne_nil (sep : List Char) (b : List Char) (bs : List (List Char))
    (hb : b ≠ []) : pyIntercalate sep (b :: bs) ≠ [] := by
  cases bs with
  | nil => exact hb
  | cons y ys =>
    show b ++ sep ++ pyIntercalate sep (y :: ys) ≠ []
    simp [hb]

/-- The head of an interleaving is the head of its first piece. -/
theorem pyIntercalate_head (sep : List Char) (b : List Char) (bs : List (List Char))
    (hb : b ≠ []) : (pyIntercalate sep (b :: bs)).head? = b.head? := by
  obtain ⟨x, b2, rfl⟩ : ∃ x b2, b = x :: b2 := by
    cases b with
    | nil => exact absurd rfl hb
    | cons x b2 => exact ⟨x, b2, rfl⟩
  cases bs with
  | nil => rfl
  | cons y ys =>
    show ((x :: b2) ++ sep ++ pyIntercalate sep (y :: ys)).head? = _
    simp

/-- Any property of the last character of every piece holds of the last
character of the interleaving, for non-empty pieces. -/
theorem pyIntercalate_getLast_prop (sep : List Char) (P : Char → Prop) :
    ∀ (bs : List (List Char)) (b : List Char),
      (∀ p ∈ b :: bs, p ≠ [] ∧ ∀ x, p.getLast? = some x → P x) →
      ∀ x, (pyIntercalate sep (b :: bs)).getLast? = some x → P x := by
  intro bs
  induction bs with
  | nil =>
    intro b hall x hx
    exact (hall b (by simp)).2 x hx
  | cons y ys ih =>
    intro b hall x hx
    have hI : pyIntercalate sep (y :: ys) ≠ [] :=
      pyIntercalate_ne_nil sep y ys (hall y (by simp)).1
    obtain ⟨z, hz⟩ : ∃ z, (pyIntercalate sep (y :: ys)).getLast? = some z := by
      cases hJ : pyIntercalate sep (y :: ys) with
      | nil => exact absurd hJ hI
      | cons w ws =>
        exact ⟨(w :: ws).getLast (by simp), List.getLast?_eq_getLast (w :: ws) (by simp)⟩
    have hx2 : (pyIntercalate sep (b :: y :: ys)).getLast? = some z := by
      show (b ++ sep ++ pyIntercalate sep (y :: ys)).getLast? = some z
      rw [List.append_assoc, List.getLast?_append, List.getLast?_append, hz]
      rfl
    rw [hx2] at hx
    simp only [Option.some.injEq] at hx
    rw [← hx]
    exact ih y (fun p hp => hall p (by simp [hp])) z hz

/-- Splitting the interleaving of boundary-free bodies on the blank-line
separator recovers exactly the list of bodies. -/
theorem pySplit_intercalate : ∀ (bs : List (List Char)) (b : List Char),
    (∀ p ∈ b :: bs, hasNN p = false ∧ (∀ x, p.getLast? = some x → ¬ x = '\n')) →
    pySplit ['\n', '\n'] (pyIntercalate ['\n', '\n'] (b :: bs)) = b :: bs := by
  intro bs
  induction bs with
  | nil =>
    intro b hall
    show pySplit ['\n', '\n'] b = [b]
    exact pySplit_eq_single ['\n', '\n'] (by simp) b
      (no_nn_pre_of_suffix b (hall b (by simp)).1)
  | cons y ys ih =>
    intro b hall
    show pySplit ['\n', '\n'] (b ++ ['\n', '\n'] ++ pyIntercalate ['\n', '\n'] (y :: ys)) =
      b :: y :: ys
    rw [pySplit_append_sep ['\n', '\n'] (by simp) b _
      (nn_junction b _ (hall b (by simp)).1 (hall b (by simp)).2)]
    rw [ih y (fun p hp => hall p (by simp [hp]))]

/-- Stripping the serialization of a non-empty valid document removes
exactly the trailing blank line. -/
theorem pyStrip_serialize (c0 : Cue) (D0 : List Cue)
    (h : ∀ c ∈ c0 :: D0, ValidCue c) :
    pyStrip (serialize (c0 :: D0)) =
      pyIntercalate ['\n', '\n'] ((c0 :: D0).map cueBody) := by
  have hfacts0 := cueBody_facts c0 (h c0 (by simp))
  rw [serialize_eq (c0 :: D0) (by simp)]
  have hXne : pyIntercalate ['\n', '\n'] ((c0 :: D0).map cueBody) ≠ [] := by
    rw [List.map_cons]
    exact pyIntercalate_ne_nil _ _ _ hfacts0.2.1
  obtain ⟨x0, X2, hX⟩ : ∃ x0 X2,
      pyIntercalate ['\n', '\n'] ((c0 :: D0).map cueBody) = x0 :: X2 := by
    cases hx : pyIntercalate ['\n', '\n'] ((c0 :: D0).map cueBody) with
    | nil => exact absurd hx hXne
    | cons x0 X2 => exact ⟨x0, X2, rfl⟩
  have hx0 : isPySpace x0 = false := by
    have hh : (pyIntercalate ['\n', '\n'] ((c0 :: D0).map cueBody)).head? =
        (cueBody c0).head? := by
      rw [List.map_cons]
      exact pyIntercalate_head _ _ _ hfacts0.2.1
    rw [hX] at hh
    exact hfacts0.2.2.1 x0 hh.symm
  unfold pyStrip
  rw [hX]
  show pyRStrip (pyLStrip ((x0 :: X2) ++ ['\n', '\n'])) = x0 :: X2
  rw [show (x0 :: X2) ++ ['\n', '\n'] = x0 :: (X2 ++ ['\n', '\n']) from rfl]
  rw [pyLStrip_cons x0 _ hx0]
  rw [show x0 :: (X2 ++ ['\n', '\n']) = (x0 :: X2) ++ ['\n', '\n'] from rfl]
  rw [pyRStrip_append_spaces (x0 :: X2) ['\n', '\n'] (by decide)]
  refine pyRStrip_eq_self (x0 :: X2) ?hl
  intro x hx
  rw [← hX] at hx
  refine pyIntercalate_getLast_prop ['\n', '\n'] (fun ch => isPySpace ch = false)
    (D0.map cueBody) (cueBody c0) ?hall x ?hx3
  · intro p hp
    simp only [← List.map_cons, List.mem_map] at hp
    obtain ⟨cc, hcc, rfl⟩ := hp
    have hfc := cueBody_facts cc (h cc hcc)
    exact ⟨hfc.2.1, hfc.2.2.2⟩
  · rw [List.map_cons] at hx
    exact hx

/-- Splitting a valid cue body into lines yields the index line, the
time line, and the lines of the stripped text. -/
theorem pySplit_nl_cueBody (c : Cue) (h : ValidCue c) :
    pySplit ['\n'] (cueBody c) =
      natToDec c.index.toNat :: c.time :: pySplit ['\n'] (pyStrip c.text) := by
  have hidx := h.1
  have htnl := h.2.2.1
  have hint : intToDec c.index = natToDec c.index.toNat := by
    unfold intToDec
    rw [if_neg (by omega)]
  have hdignl : '\n' ∉ natToDec c.index.toNat := fun hm =>
    isDigit_ne_newline '\n' (natToDec_all_digit _ '\n' hm) rfl
  have hshape : cueBody c =
      natToDec c.index.toNat ++ ['\n'] ++ (c.time ++ ['\n'] ++ pyStrip c.text) := by
    unfold cueBody
    rw [hint]
    simp
  rw [hshape]
  rw [pySplit_append_sep ['\n'] (by simp) _ _ (single_char_junction '\n' _ _ hdignl)]
  rw [pySplit_append_sep ['\n'] (by simp) _ _ (single_char_junction '\n' _ _ htnl)]

/-- Parsing one serialized valid cue body recovers the trimmed cue. -/
theorem blockCue_cueBody (c : Cue) (h : ValidCue c) :
    blockCue (cueBody c) = some (trimCue c) := by
  have hfacts := cueBody_facts c h
  obtain ⟨d0, body2, hbody⟩ : ∃ d0 body2, cueBody c = d0 :: body2 := by
    cases hx : cueBody c with
    | nil => exact absurd hx hfacts.2.1
    | cons d0 body2 => exact ⟨d0, body2, rfl⟩
  have hstrip : pyStrip (cueBody c) = cueBody c := by
    rw [hbody]
    refine pyStrip_eq_self d0 body2 ?h1 ?h2
    · exact hfacts.2.2.1 d0 (by rw [hbody]; rfl)
    · intro x hx
      exact hfacts.2.2.2 x (by rw [hbody]; exact hx)
  unfold blockCue
  rw [hstrip, pySplit_nl_cueBody c h]
  have hlen : ¬ (natToDec c.index.toNat :: c.time ::
      pySplit ['\n'] (pyStrip c.text)).length < 3 := by
    have h1 := pySplit_ne_nil ['\n'] (pyStrip c.text)
    have h2 : 1 ≤ (pySplit ['\n'] (pyStrip c.text)).length := List.length_pos.mpr h1
    simp only [List.length_cons]
    omega
  rw [if_neg hlen]
  have h0 : (natToDec c.index.toNat :: c.time ::
      pySplit ['\n'] (pyStrip c.text)).getD 0 [] = natToDec c.index.toNat := rfl
  rw [h0, pyInt_natToDec c.index.toNat]
  show some ⟨(c.index.toNat : Int), c.time, pyIntercalate ['\n']
      ((natToDec c.index.toNat :: c.time :: pySplit ['\n'] (pyStrip c.text)).drop 2)⟩ =
    some (trimCue c)
  have hdrop : (natToDec c.index.toNat :: c.time ::
      pySplit ['\n'] (pyStrip c.text)).drop 2 = pySplit ['\n'] (pyStrip c.text) := rfl
  rw [hdrop, pyIntercalate_pySplit ['\n'] (by simp) (pyStrip c.text),
    Int.toNat_of_nonneg (le_of_lt h.1)]
  rfl

/-- The appending loop of `parse_srt` is a `filterMap` over the blocks. -/
theorem parse_foldl (blocks : List (List Char)) : ∀ init : List Cue,
    blocks.foldl
      (fun subtitles block =>
        match blockCue block with
        | none => subtitles
        | some c => subtitles ++ [c]) init =
    init ++ blocks.filterMap blockCue := by
  induction blocks with
  | nil => intro init; simp
  | cons b bs ih =>
    intro init
    simp only [List.foldl_cons, List.filterMap_cons]
    cases hb : blockCue b with
    | none => simp only [hb]; rw [ih init]
    | some c => simp only [hb]; rw [ih (init ++ [c])]; simp

/-- `parse_srt` equals a `filterMap` of the per-block parser over the
blank-line-separated blocks. -/
theorem parse_srt_eq (s : List Char) :
    parse_srt s = (pySplit ['\n', '\n'] (pyStrip s)).filterMap blockCue := by
  unfold parse_srt
  rw [parse_foldl]
  simp

/-- C1: for every valid SubtitleDocument (cues with a positive index, a
non-empty single-line time-range literal, and non-blank text containing
no blank lines), parsing the serialized form yields the document again,
up to whitespace trimming of each cue's text:
`parse_srt (serialize D) = D` modulo that trimming. -/
theorem c1_parse_serialize_roundtrip (D : List Cue) (h : ∀ c ∈ D, ValidCue c) :
    parse_srt (serialize D) = D.map trimCue := by
  cases D with
  | nil => decide
  | cons c0 D0 =>
    have hall : ∀ p ∈ cueBody c0 :: D0.map cueBody,
        hasNN p = false ∧ (∀ x, p.getLast? = some x → ¬ x = '\n') := by
      intro p hp
      have hp2 : ∃ cc, cc ∈ c0 :: D0 ∧ cueBody cc = p := by
        rw [← List.map_cons] at hp
        rcases List.mem_map.mp hp with ⟨cc, hcc, hcp⟩
        exact ⟨cc, hcc, hcp⟩
      obtain ⟨cc, hcc, rfl⟩ := hp2
      have hf := cueBody_facts cc (h cc hcc)
      refine ⟨hf.1, ?hl⟩
      intro x hx he
      have hns := hf.2.2.2 x hx
      rw [he] at hns
      exact absurd hns (by decide)
    rw [parse_srt_eq, pyStrip_serialize c0 D0 h, List.map_cons]
    rw [pySplit_intercalate (D0.map cueBody) (cueBody c0) hall]
    rw [← List.map_cons, List.filterMap_map]
    have hcong : ∀ x ∈ c0 :: D0, (blockCue ∘ cueBody) x = (some ∘ trimCue) x := by
      intro x hx
      show blockCue (cueBody x) = some (trimCue x)
      exact blockCue_cueBody x (h x hx)
    rw [List.filterMap_congr hcong, List.filterMap_eq_map]

/-- Witness for the round trip on a concrete two-cue document. -/
theorem c1_parse_serialize_roundtrip_witness :
    (∀ c ∈ [(⟨1, "00:00:00,000 --> 00:00:02,500".toList, " hello\nworld ".toList⟩ : Cue),
        ⟨2, "00:00:02,500 --> 00:00:04,000".toList, "bye".toList⟩], ValidCue c) ∧
    parse_srt (serialize
        [⟨1, "00:00:00,000 --> 00:00:02,500".toList, " hello\nworld ".toList⟩,
          ⟨2, "00:00:02,500 --> 00:00:04,000".toList, "bye".toList⟩]) =
      List.map trimCue
        [⟨1, "00:00:00,000 --> 00:00:02,500".toList, " hello\nworld ".toList⟩,
          ⟨2, "00:00:02,500 --> 00:00:04,000".toList, "bye".toList⟩] :=
  ⟨by decide, c1_parse_serialize_roundtrip
    [⟨1, "00:00:00,000 --> 00:00:02,500".toList, " hello\nworld ".toList⟩,
      ⟨2, "00:00:02,500 --> 00:00:04,000".toList, "bye".toList⟩] (by decide)⟩

/-- C5: `parse_srt` splits its input into blocks on blank-line
boundaries and silently drops exactly those blocks that have fewer than
3 lines or whose first line does not parse as an integer; every
remaining block yields a cue with that integer index, line 2 retained
verbatim as the time-range literal, and lines 3..end rejoined with line
breaks.  The concrete conjuncts exercise the two drop conditions (a
2-line block, a non-numeric first line) and a kept multi-line block. -/
theorem c5_parse_block_filtering :
    (∀ s : List Char, parse_srt s =
      (pySplit ['\n', '\n'] (pyStrip s)).filterMap (fun block =>
        if 3 ≤ (pySplit ['\n'] (pyStrip block)).length then
          match pyInt ((pySplit ['\n'] (pyStrip block)).getD 0 []) with
          | some i => some ⟨i, (pySplit ['\n'] (pyStrip block)).getD 1 [],
              pyIntercalate ['\n'] ((pySplit ['\n'] (pyStrip block)).drop 2)⟩
          | none => none
        else none)) ∧
    parse_srt ("1\n00:00:00,000 --> 00:00:01,000".toList) = [] ∧
    parse_srt ("x\nT\nhello".toList) = [] ∧
    parse_srt ("2\nT\nhello\nworld".toList) = [⟨2, "T".toList, "hello\nworld".toList⟩] := by
  refine ⟨?hgen, by decide, by decide, by decide⟩
  intro s
  rw [parse_srt_eq]
  refine List.filterMap_congr ?hcong
  intro block _
  unfold blockCue
  by_cases hlen : (pySplit ['\n'] (pyStrip block)).length < 3
  · rw [if_pos hlen, if_neg (by omega)]
  · rw [if_neg hlen, if_pos (by omega)]
    cases hi : pyInt ((pySplit ['\n'] (pyStrip block)).getD 0 []) with
    | none => rfl
    | some i => rfl

/-!
Time formatting (claim C6).
-/

/-- Statement of the claimed time-format semantics: with `T` the number
of whole seconds (floor), the fields are `T / 3600` hours (no upper
bound, no wraparound), `T % 3600 / 60` minutes, `T % 60` seconds, and
the milliseconds are the truncation `⌊1000·q⌋ mod 1000` of the
fractional part (truncation, not rounding). -/
def specTimeString (q : ℚ) : List Char :=
  pad2 ((⌊q⌋).toNat / 3600) ++
    ':' :: (pad2 ((⌊q⌋).toNat % 3600 / 60) ++
      ':' :: (pad2 ((⌊q⌋).toNat % 60) ++
        ',' :: pad3 ((⌊q * 1000⌋).toNat % 1000)))

/-- Floor of `(m + r) / k` for a fractional offset `0 ≤ r < 1` is the
natural division `m / k`. -/
theorem floor_div_offset (r : ℚ) (hr0 : 0 ≤ r) (hr1 : r < 1) (m k : Nat) (hk : 0 < k) :
    ⌊((m : ℚ) + r) / (k : ℚ)⌋ = ((m / k : ℕ) : ℤ) := by
  have hkq : (0 : ℚ) < (k : ℚ) := by exact_mod_cast hk
  have hc : (((m / k : ℕ) : ℤ) : ℚ) = ((m / k : ℕ) : ℚ) := by norm_cast
  rw [Int.floor_eq_iff]
  constructor
  · rw [hc, le_div_iff₀ hkq]
    have h1q : ((m / k : ℕ) : ℚ) * (k : ℚ) ≤ (m : ℚ) := by
      exact_mod_cast Nat.div_mul_le_self m k
    linarith
  · rw [div_lt_iff₀ hkq, hc]
    have h2 : m + 1 ≤ m / k * k + k := by
      calc m + 1 = (k * (m / k) + m % k) + 1 := by rw [Nat.div_add_mod m k]
      _ ≤ k * (m / k) + k := by
          have := Nat.mod_lt m hk
          omega
      _ = m / k * k + k := by ring
    have h2q : (m : ℚ) + 1 ≤ ((m / k : ℕ) : ℚ) * (k : ℚ) + (k : ℚ) := by
      exact_mod_cast h2
    linarith

/-- Floor of a natural number plus a fractional offset. -/
theorem floor_add_fract (m : Nat) (r : ℚ) (hr0 : 0 ≤ r) (hr1 : r < 1) :
    ⌊(m : ℚ) + r⌋ = (m : ℤ) := by
  rw [Int.floor_eq_iff]
  constructor
  · push_cast
    linarith
  · push_cast
    linarith

/-- C6: for every non-negative number of seconds, `format_srt_time`
produces `HH:MM:SS,mmm` with floor-to-second hour/minute/second fields,
truncated (not rounded) milliseconds, and an unbounded hour field; in
particular 3661.25 s formats as `"01:01:01,250"`, 59.999 s as
`"00:00:59,999"`, and 100 h of audio prints a three-digit hour field. -/
theorem c6_time_format :
    (∀ q : ℚ, 0 ≤ q → format_srt_time q = specTimeString q) ∧
    format_srt_time (14645 / 4) = "01:01:01,250".toList ∧
    format_srt_time (59999 / 1000) = "00:00:59,999".toList ∧
    format_srt_time 360000 = "100:00:00,000".toList := by
  have hgen : ∀ q : ℚ, 0 ≤ q → format_srt_time q = specTimeString q := by
    intro q hq
    have hfl : (0 : ℤ) ≤ ⌊q⌋ := Int.floor_nonneg.mpr hq
    obtain ⟨T, hT⟩ : ∃ T : ℕ, ⌊q⌋ = (T : ℤ) := ⟨(⌊q⌋).toNat, (Int.toNat_of_nonneg hfl).symm⟩
    have hle : (T : ℚ) ≤ q := by
      have := Int.floor_le q
      rw [hT] at this
      exact_mod_cast this
    have hlt : q < (T : ℚ) + 1 := by
      have := Int.lt_floor_add_one q
      rw [hT] at this
      exact_mod_cast this
    have hqr : q = (T : ℚ) + (q - T) := by ring
    have hr0 : (0 : ℚ) ≤ q - T := by linarith
    have hr1 : q - (T : ℚ) < 1 := by linarith
    have h1 : ⌊q / 3600⌋ = ((T / 3600 : ℕ) : ℤ) := by
      rw [show (3600 : ℚ) = ((3600 : ℕ) : ℚ) by norm_num, hqr]
      exact floor_div_offset (q - T) hr0 hr1 T 3600 (by norm_num)
    have hcast1 : ((((T / 3600 : ℕ) : ℤ)) : ℚ) = ((T / 3600 : ℕ) : ℚ) := by norm_cast
    have hm1 : q - 3600 * ((T / 3600 : ℕ) : ℚ) = ((T % 3600 : ℕ) : ℚ) + (q - T) := by
      have h4 := Nat.div_add_mod T 3600
      have h4q : (3600 : ℚ) * ((T / 3600 : ℕ) : ℚ) + ((T % 3600 : ℕ) : ℚ) = (T : ℚ) := by
        exact_mod_cast h4
      linarith
    have h2 : ⌊(q - 3600 * ((((T / 3600 : ℕ) : ℤ)) : ℚ)) / 60⌋ = ((T % 3600 / 60 : ℕ) : ℤ) := by
      rw [hcast1, hm1, show (60 : ℚ) = ((60 : ℕ) : ℚ) by norm_num]
      exact floor_div_offset (q - T) hr0 hr1 (T % 3600) 60 (by norm_num)
    have h3a : ⌊q / 60⌋ = ((T / 60 : ℕ) : ℤ) := by
      rw [show (60 : ℚ) = ((60 : ℕ) : ℚ) by norm_num, hqr]
      exact floor_div_offset (q - T) hr0 hr1 T 60 (by norm_num)
    have hcast2 : ((((T / 60 : ℕ) : ℤ)) : ℚ) = ((T / 60 : ℕ) : ℚ) := by norm_cast
    have hs1 : q - 60 * ((T / 60 : ℕ) : ℚ) = ((T % 60 : ℕ) : ℚ) + (q - T) := by
      have h4 := Nat.div_add_mod T 60
      have h4q : (60 : ℚ) * ((T / 60 : ℕ) : ℚ) + ((T % 60 : ℕ) : ℚ) = (T : ℚ) := by
        exact_mod_cast h4
      linarith
    have h3 : ⌊q - 60 * ((((T / 60 : ℕ) : ℤ)) : ℚ)⌋ = ((T % 60 : ℕ) : ℤ) := by
      rw [hcast2, hs1]
      exact floor_add_fract (T % 60) (q - T) hr0 hr1
    have h4 : ⌊(q - ((⌊q⌋ : ℤ) : ℚ)) * 1000⌋ = ⌊(q - (T : ℚ)) * 1000⌋ := by
      rw [hT]
      norm_cast
    have hf0 : (0 : ℤ) ≤ ⌊(q - (T : ℚ)) * 1000⌋ := Int.floor_nonneg.mpr (by nlinarith)
    have hf1 : ⌊(q - (T : ℚ)) * 1000⌋ < 1000 := by
      rw [Int.floor_lt]
      push_cast
      nlinarith
    have h5 : ⌊q * 1000⌋ = 1000 * (T : ℤ) + ⌊(q - (T : ℚ)) * 1000⌋ := by
      have hsh : q * 1000 = ((1000 * T : ℤ) : ℚ) + (q - T) * 1000 := by
        push_cast
        ring
      rw [hsh, Int.floor_int_add]
    unfold format_srt_time specTimeString
    rw [h1, h2, h3a, h3, h4, hT, h5]
    rw [Int.toNat_natCast, Int.toNat_natCast, Int.toNat_natCast, Int.toNat_natCast]
    have hms : (⌊(q - (T : ℚ)) * 1000⌋).toNat =
        (1000 * (T : ℤ) + ⌊(q - (T : ℚ)) * 1000⌋).toNat % 1000 := by
      omega
    rw [hms]
  refine ⟨hgen, ?e1, ?e2, ?e3⟩
  case e1 =>
    rw [hgen (14645 / 4) (by norm_num)]
    have hf : ⌊(14645 / 4 : ℚ)⌋ = 3661 := by
      rw [Int.floor_eq_iff] <;> norm_num
    have hf2 : ⌊(14645 / 4 : ℚ) * 1000⌋ = 3661250 := by
      rw [show (14645 / 4 : ℚ) * 1000 = ((3661250 : ℤ) : ℚ) by norm_num, Int.floor_intCast]
    unfold specTimeString
    rw [hf, hf2]
    decide
  case e2 =>
    rw [hgen (59999 / 1000) (by norm_num)]
    have hf : ⌊(59999 / 1000 : ℚ)⌋ = 59 := by
      rw [Int.floor_eq_iff] <;> norm_num
    have hf2 : ⌊(59999 / 1000 : ℚ) * 1000⌋ = 59999 := by
      rw [show (59999 / 1000 : ℚ) * 1000 = ((59999 : ℤ) : ℚ) by norm_num, Int.floor_intCast]
    unfold specTimeString
    rw [hf, hf2]
    decide
  case e3 =>
    rw [hgen 360000 (by norm_num)]
    have hf : ⌊(360000 : ℚ)⌋ = 360000 := by
      rw [show (360000 : ℚ) = ((360000 : ℤ) : ℚ) by norm_num, Int.floor_intCast]
    have hf2 : ⌊(360000 : ℚ) * 1000⌋ = 360000000 := by
      rw [show (360000 : ℚ) * 1000 = ((360000000 : ℤ) : ℚ) by norm_num, Int.floor_intCast]
    unfold specTimeString
    rw [hf, hf2]
    decide

/-- Witness pinning the hypothesis of the universally quantified part of
the time-format theorem at a concrete non-negative input. -/
theorem c6_time_format_witness :
    (0 : ℚ) ≤ 0 ∧ format_srt_time 0 = specTimeString 0 :=
  ⟨le_refl 0, c6_time_format.1 0 (le_refl 0)⟩

/-!
Segment text normalization (claim C7) and SRT generation (claim C10).
-/

/-- Statement of the claimed normalization order: first replace every
occurrence of three consecutive periods with the ellipsis, then every
remaining occurrence of two consecutive periods with the full-width
period, and finally strip surrounding whitespace. -/
def specNormalize (t : List Char) : List Char :=
  pyStrip (pyReplace (pyReplace t ("...".toList) ("…".toList)) ("..".toList) ("。".toList))

/-- C7: the text placed in every generated cue is the segment text
normalized by the two ordered replacements followed by a strip.  The
concrete conjuncts exercise each replacement, the stripping, and — on
the input `"..."` — that applying the two replacements in the opposite
order gives a different result (`"。."`), so the order is as claimed. -/
theorem c7_text_normalization :
    (∀ t : List Char, segTextForCue t = specNormalize t) ∧
    segTextForCue (" ab... ".toList) = "ab…".toList ∧
    segTextForCue ("a..b".toList) = "a。b".toList ∧
    segTextForCue ("...".toList) = "…".toList ∧
    pyStrip (pyReplace (pyReplace ("...".toList) ("..".toList) ("。".toList))
      ("...".toList) ("…".toList)) = "。.".toList ∧
    ("。.".toList : List Char) ≠ "…".toList := by
  refine ⟨fun t => rfl, by decide, by decide, by decide, by decide, by decide⟩

/-- C10: called with `None` or an empty segment sequence, `generate_srt`
returns at the early guard and performs no file write at all (the result
is `none`: no subtitle file, not an empty one). -/
theorem c10_empty_segments_no_write :
    ∀ (audio_file srt_dir : List Char),
      generate_srt none audio_file srt_dir = none ∧
      generate_srt (some []) audio_file srt_dir = none := by
  intro audio_file srt_dir
  exact ⟨rfl, rfl⟩

/-!
Language resolution (claim C3).
-/

/-- The resolver only consults catalog key membership, so it is invariant
under permuting the catalog's internal key order. -/
theorem selectLang_perm (cat cat2 : Catalog) (h : (catKeys cat).Perm (catKeys cat2)) :
    ∀ prefs, selectLang cat prefs = selectLang cat2 prefs := by
  intro prefs
  induction prefs with
  | nil => rfl
  | cons p rest ih =>
    by_cases hp : p ∈ catKeys cat
    · simp only [selectLang, if_pos hp, if_pos (h.mem_iff.mp hp)]
    · simp only [selectLang, if_neg hp, if_neg (fun hc => hp (h.mem_iff.mpr hc))]
      exact ih

/-- The resolver returns `none` exactly when no preferred code is a
catalog key (in particular on the empty preference list). -/
theorem selectLang_none_iff (cat : Catalog) :
    ∀ prefs, selectLang cat prefs = none ↔ ∀ l ∈ prefs, l ∉ catKeys cat := by
  intro prefs
  induction prefs with
  | nil => simp [selectLang]
  | cons p rest ih =>
    by_cases hp : p ∈ catKeys cat
    · simp only [selectLang, if_pos hp]
      constructor
      · intro hc; exact Option.noConfusion hc
      · intro hall; exact absurd hp (hall p (by simp))
    · simp only [selectLang, if_neg hp]
      rw [ih]
      constructor
      · intro hall l hl
        rcases List.mem_cons.mp hl with rfl | hl2
        · exact hp
        · exact hall l hl2
      · intro hall l hl
        exact hall l (by simp [hl])

/-- A successful resolution returns the first preferred code that is a
catalog key: an element of the preference list all of whose predecessors
in the list are not keys. -/
theorem selectLang_some (cat : Catalog) :
    ∀ (prefs : List (List Char)) (l : List Char), selectLang cat prefs = some l →
      ∃ i, ∃ hi : i < prefs.length, prefs.get ⟨i, hi⟩ = l ∧ l ∈ catKeys cat ∧
        ∀ j (hj : j < i), prefs.get ⟨j, lt_trans hj hi⟩ ∉ catKeys cat := by
  intro prefs
  induction prefs with
  | nil => intro l hl; exact Option.noConfusion hl
  | cons p rest ih =>
    intro l hl
    by_cases hp : p ∈ catKeys cat
    · simp only [selectLang, if_pos hp, Option.some.injEq] at hl
      refine ⟨0, by simp, ?hg, ?hm, ?hprev⟩
      · simpa using hl
      · rw [← hl]; exact hp
      · intro j hj
        omega
    · simp only [selectLang, if_neg hp] at hl
      obtain ⟨i, hi, hget, hmem, hprev⟩ := ih l hl
      refine ⟨i + 1, by simpa using Nat.succ_lt_succ hi, ?hg2, hmem, ?hprev2⟩
      · simpa using hget
      · intro j hj
        cases j with
        | zero => simpa using hp
        | succ j2 =>
          have := hprev j2 (by omega)
          simpa using this

/-- C3: the language resolver returns the first element of the
preference list (scanned in order) that is a key of the catalog,
independently of the catalog's internal key order, and returns `none`
when no element matches or the list is empty. -/
theorem c3_language_resolution (cat cat2 : Catalog) (prefs : List (List Char))
    (hperm : (catKeys cat).Perm (catKeys cat2)) :
    selectLang cat prefs = selectLang cat2 prefs ∧
    (selectLang cat prefs = none ↔ ∀ l ∈ prefs, l ∉ catKeys cat) ∧
    (∀ l, selectLang cat prefs = some l →
      ∃ i, ∃ hi : i < prefs.length, prefs.get ⟨i, hi⟩ = l ∧ l ∈ catKeys cat ∧
        ∀ j (hj : j < i), prefs.get ⟨j, lt_trans hj hi⟩ ∉ catKeys cat) :=
  ⟨selectLang_perm cat cat2 hperm prefs, selectLang_none_iff cat prefs,
    selectLang_some cat prefs⟩

/-- Witness applying the resolver theorem to concrete catalogs whose key
lists are permutations of each other. -/
theorem c3_language_resolution_witness :
    (catKeys [("en".toList, "t1".toList), ("zh".toList, "t2".toList)]).Perm
      (catKeys [("zh".toList, "t2".toList), ("en".toList, "t1".toList)]) ∧
    selectLang [("en".toList, "t1".toList), ("zh".toList, "t2".toList)]
        ["fr".toList, "zh".toList, "en".toList] =
      selectLang [("zh".toList, "t2".toList), ("en".toList, "t1".toList)]
        ["fr".toList, "zh".toList, "en".toList] :=
  ⟨by decide,
    (c3_language_resolution
      [("en".toList, "t1".toList), ("zh".toList, "t2".toList)]
      [("zh".toList, "t2".toList), ("en".toList, "t1".toList)]
      ["fr".toList, "zh".toList, "en".toList] (by decide)).1⟩

/-!
Catalog construction (claim C4).
-/

/-- The two isEmpty guards in `get_video_info` reduce the catalog
construction to a plain append of manual and automatic tracks. -/
theorem buildCatalog_eq_append (manual auto : Catalog) :
    buildCatalog manual auto = manual ++ auto := by
  unfold buildCatalog dictUpdate
  cases hm : (manual : List (List Char × List Char)).isEmpty with
  | true =>
    have hm2 : manual = [] := List.isEmpty_iff.mp hm
    cases ha : (auto : List (List Char × List Char)).isEmpty with
    | true =>
      have ha2 : auto = [] := List.isEmpty_iff.mp ha
      simp [hm2, ha2]
    | false => simp [hm2]
  | false =>
    cases ha : (auto : List (List Char × List Char)).isEmpty with
    | true =>
      have ha2 : auto = [] := List.isEmpty_iff.mp ha
      simp [ha2]
    | false => simp

/-- Lookup in an appended dict prefers the later dict on its keys. -/
theorem dictGet_append_right (m a : Catalog) (k : List Char) (h : k ∈ catKeys a) :
    dictGet (m ++ a) k = dictGet a k := by
  unfold dictGet
  rw [List.reverse_append, List.find?_append]
  have hsome : (a.reverse.find? (fun p => decide (p.1 = k))).isSome = true := by
    rw [List.find?_isSome]
    obtain ⟨p, hp, hpk⟩ := List.mem_map.mp h
    exact ⟨p, List.mem_reverse.mpr hp, by simp [hpk]⟩
  obtain ⟨v, hv⟩ := Option.isSome_iff_exists.mp hsome
  rw [hv]
  rfl

/-- Lookup in an appended dict falls back to the earlier dict off the
later dict's keys. -/
theorem dictGet_append_left (m a : Catalog) (k : List Char) (h : k ∉ catKeys a) :
    dictGet (m ++ a) k = dictGet m k := by
  unfold dictGet
  rw [List.reverse_append, List.find?_append]
  have hnone : a.reverse.find? (fun p => decide (p.1 = k)) = none := by
    rw [List.find?_eq_none]
    intro p hp hpk
    simp only [decide_eq_true_eq] at hpk
    exact h (List.mem_map.mpr ⟨p, List.mem_reverse.mp hp, hpk⟩)
  rw [hnone]
  rfl

/-- C4: the caption catalog inserts all manual tracks and then all
automatic tracks, so every language code carried by the automatic
mapping resolves to the automatic track (automatic wins on key
collision), and all other codes resolve to the manual mapping. -/
theorem c4_catalog_merge (manual auto : Catalog) (k : List Char) :
    (k ∈ catKeys auto → dictGet (buildCatalog manual auto) k = dictGet auto k) ∧
    (k ∉ catKeys auto → dictGet (buildCatalog manual auto) k = dictGet manual k) := by
  constructor
  · intro h
    rw [buildCatalog_eq_append]
    exact dictGet_append_right manual auto k h
  · intro h
    rw [buildCatalog_eq_append]
    exact dictGet_append_left manual auto k h

/-- Witness: on a key present in both mappings the merged catalog
returns the automatic track, and on a key absent from the automatic
mapping it returns the manual side. -/
theorem c4_catalog_merge_witness :
    ("en".toList ∈ catKeys [("en".toList, "auto-en".toList), ("fr".toList, "auto-fr".toList)]) ∧
    dictGet (buildCatalog [("en".toList, "manual-en".toList)]
        [("en".toList, "auto-en".toList), ("fr".toList, "auto-fr".toList)]) ("en".toList) =
      dictGet [("en".toList, "auto-en".toList), ("fr".toList, "auto-fr".toList)] ("en".toList) ∧
    ("de".toList ∉ catKeys [("en".toList, "auto-en".toList), ("fr".toList, "auto-fr".toList)]) ∧
    dictGet (buildCatalog [("en".toList, "manual-en".toList)]
        [("en".toList, "auto-en".toList), ("fr".toList, "auto-fr".toList)]) ("de".toList) =
      dictGet [("en".toList, "manual-en".toList)] ("de".toList) :=
  ⟨by decide,
    (c4_catalog_merge [("en".toList, "manual-en".toList)]
      [("en".toList, "auto-en".toList), ("fr".toList, "auto-fr".toList)] ("en".toList)).1
      (by decide),
    by decide,
    (c4_catalog_merge [("en".toList, "manual-en".toList)]
      [("en".toList, "auto-en".toList), ("fr".toList, "auto-fr".toList)] ("de".toList)).2
      (by decide)⟩

/-!
Download strategy selection (claims C2 and C9) and probe-failure
handling (claim C8).
-/

/-- A concrete configuration (with a cookiefile configured) used by the
concrete strategy-selection statements. -/
def cfgEx : DLConfig :=
  { quiet := none
    no_warnings := none
    cookiefile := some ("cookies.txt".toList)
    srt_path := "srt".toList
    audio_path := "audio".toList
    output_template := none }

/-- Counterexample to C2 as stated: when the resolver result is the
present-but-empty string `some ""`, the selector does not build the
caption job the claim promises for every present resolved language — it
disables both subtitle-writing options, omits the language restriction
and the credential, and requests the worst-quality audio format. -/
theorem c2_counterexample :
    (generate_download_options cfgEx (some [])).writesubtitles = some false ∧
    (generate_download_options cfgEx (some [])).writeautomaticsub = some false ∧
    (generate_download_options cfgEx (some [])).subtitleslangs = none ∧
    (generate_download_options cfgEx (some [])).format = some ("worstaudio/worst".toList) ∧
    (generate_download_options cfgEx (some [])).cookiefile = none := by
  decide

/-- C2 (amended): when the resolved language is present and non-empty
the job enables manual and automatic subtitle writing restricted to
exactly that language, suppresses the media download, attaches an empty
post-processor list, and carries the configured credential; when the
resolved language is absent or empty the job requests the
worst-quality audio format, disables both subtitle options, and carries
no credential. -/
theorem c2_amended_strategy (config : DLConfig) (sl : Option (List Char)) :
    (∀ s, sl = some s → s ≠ [] →
      (generate_download_options config sl).writesubtitles = some true ∧
      (generate_download_options config sl).writeautomaticsub = some true ∧
      (generate_download_options config sl).subtitleslangs = some [s] ∧
      (generate_download_options config sl).skip_download = some true ∧
      (generate_download_options config sl).postprocessors = some [] ∧
      (generate_download_options config sl).cookiefile = config.cookiefile ∧
      (generate_download_options config sl).format = none ∧
      (generate_download_options config sl).outtmpl =
        some (pyPathJoin config.srt_path (config.output_template.getD defaultOutputTemplate))) ∧
    ((sl = none ∨ sl = some []) →
      (generate_download_options config sl).format = some ("worstaudio/worst".toList) ∧
      (generate_download_options config sl).writesubtitles = some false ∧
      (generate_download_options config sl).writeautomaticsub = some false ∧
      (generate_download_options config sl).cookiefile = none ∧
      (generate_download_options config sl).outtmpl =
        some (pyPathJoin config.audio_path (config.output_template.getD defaultOutputTemplate))) := by
  constructor
  · intro s hsl hs
    subst hsl
    have htruthy : optTruthy (some s) = true := by
      cases s with
      | nil => exact absurd rfl hs
      | cons c cs => rfl
    unfold generate_download_options
    rw [if_pos htruthy]
    exact ⟨rfl, rfl, rfl, rfl, rfl, rfl, rfl, rfl⟩
  · intro hsl
    have hfalse : ¬ (optTruthy sl = true) := by
      rcases hsl with rfl | rfl <;> simp [optTruthy]
    unfold generate_download_options
    rw [if_neg hfalse]
    exact ⟨rfl, rfl, rfl, rfl, rfl⟩

/-- Witness instantiating both branches of the amended strategy claim
at concrete inputs. -/
theorem c2_amended_strategy_witness :
    ("en".toList ≠ []) ∧
    (generate_download_options cfgEx (some ("en".toList))).writesubtitles = some true ∧
    (generate_download_options cfgEx none).format = some ("worstaudio/worst".toList) :=
  ⟨by decide,
    ((c2_amended_strategy cfgEx (some ("en".toList))).1 ("en".toList) rfl (by decide)).1,
    ((c2_amended_strategy cfgEx none).2 (Or.inl rfl)).1⟩

/-- Catalog with the empty string as a key, for the truthiness claim. -/
def cat9 : Catalog := [([], "auto-empty-track".toList)]

/-- C9: the branch of the selector tests Python truthiness, not
presence: with the empty string both a preference-list element and a
catalog key, the resolver returns the (present) empty string, yet the
selector builds the audio-mode job rather than the caption-mode job. -/
theorem c9_empty_string_truthiness :
    selectLang cat9 [[]] = some [] ∧
    (generate_download_options cfgEx (selectLang cat9 [[]])).format =
      some ("worstaudio/worst".toList) ∧
    (generate_download_options cfgEx (selectLang cat9 [[]])).writesubtitles = some false ∧
    (generate_download_options cfgEx (selectLang cat9 [[]])).writeautomaticsub = some false ∧
    (generate_download_options cfgEx (selectLang cat9 [[]])).skip_download = none := by
  decide

/-- C8: when the caption-availability probe fails (for any exception),
`get_video_info` returns the sentinel `(None, None)`, the main loop's
step for that video is a skip (it never reaches the download call, so
neither the caption nor the audio path runs), and the surrounding loop
processes the remaining references unchanged. -/
theorem c8_probe_failure_skips (config : DLConfig) (prefs : List (List Char))
    (e : List Char) :
    get_video_info (Except.error e) prefs = (none, none) ∧
    processUrl config prefs (Except.error e) = UrlAction.skip ∧
    (∀ pre post : List (Except (List Char) VideoInfo),
      processAll config prefs (pre ++ Except.error e :: post) =
        processAll config prefs pre ++ UrlAction.skip :: processAll config prefs post) := by
  refine ⟨rfl, rfl, ?hloop⟩
  intro pre post
  unfold processAll
  rw [List.map_append, List.map_cons]
  rfl
